import Mathlib

/-!
Verification of the `ringbuffer` Go library (Euheimr/ringbuffer) against its
natural-language specification.

The Go source (`ringbuffer.go`) is shallowly embedded below:

* `RingBuffer T` mirrors the struct fields `buffer`, `capacity`, `values`,
  `writeIndex`, `isFull`, `isEmpty` (the mutex only serializes access and has
  no sequential semantics, so it is not modelled);
* `New`, `Write`, `WriteValues`, `Read`, `Reset`, `Length`, `Size`, `IsFull`,
  `IsEmpty` follow the Go function bodies line by line; fallible operations
  return their `error` result explicitly (`Except` / `Option BufferError`);
* Go `int` arithmetic on indices is represented over `Nat` (all index
  arithmetic in the source is on non-negative quantities; the one signed
  input, the requested capacity, is taken as `Int`);
* `NewSize` does not appear in the provided source files, only in its tests,
  so it is modelled from the spec (see its doc comment).
-/

namespace RingSpec

/-- The three error sentinel values of `ringbuffer.go`:
`errBufferSizeIsZero` (spec: `InvalidCapacity`),
`errBufferSizeTooSmall` (spec: `CapacityTooSmall` / `CapacityExceeded`),
`errDataLengthIsZero` (spec: `EmptyInput`). -/
inductive BufferError where
  | errBufferSizeIsZero
  | errBufferSizeTooSmall
  | errDataLengthIsZero
deriving DecidableEq, Repr

/-- The `RingBuffer[T]` struct of `ringbuffer.go`.  `buffer` is the backing
slice, `capacity` the total size, `values` the number of stored elements,
`writeIndex` the next slot to write, and `isFull` / `isEmpty` the two status
flags maintained by `Write` / `Reset`. -/
structure RingBuffer (T : Type) where
  buffer : List T
  capacity : Nat
  values : Nat
  writeIndex : Nat
  isFull : Bool
  isEmpty : Bool
deriving Repr

variable {T : Type}

/-- `New` from `ringbuffer.go`: rejects `capacity <= 0` with
`errBufferSizeIsZero`, otherwise allocates `capacity` default-valued slots
(`make([]T, capacity)`), with `values = 0`, `writeIndex = 0`,
`isFull = false`, `isEmpty = true`. -/
def New (T : Type) [Inhabited T] (capacity : Int) :
    Except BufferError (RingBuffer T) :=
  if capacity ≤ 0 then .error .errBufferSizeIsZero
  else .ok
    { buffer := List.replicate capacity.toNat default
      capacity := capacity.toNat
      values := 0
      writeIndex := 0
      isFull := false
      isEmpty := true }

/-- The first half of the body of `Write`: store the value at `writeIndex`,
advance `writeIndex` modulo `capacity`, and increment `values` only while the
buffer is not full. -/
def RingBuffer.advance (rb : RingBuffer T) (value : T) : RingBuffer T :=
  { rb with
    buffer := rb.buffer.set rb.writeIndex value
    writeIndex := (rb.writeIndex + 1) % rb.capacity
    values := if rb.values < rb.capacity then rb.values + 1 else rb.values }

/-- The second half of the body of `Write`: the `if / else if / else` chain
that maintains the `isFull` / `isEmpty` flags, evaluated on the already
mutated fields exactly as in the Go source. -/
def RingBuffer.updateFlags (rb : RingBuffer T) : RingBuffer T :=
  if rb.values = rb.capacity then { rb with isFull := true }
  else if rb.values = 0 ∧ rb.writeIndex = rb.values then { rb with isEmpty := true }
  else { rb with isEmpty := false }

/-- The state transition performed by `Write` (which always returns `nil`). -/
def RingBuffer.writeStep (rb : RingBuffer T) (value : T) : RingBuffer T :=
  (rb.advance value).updateFlags

/-- `Write` from `ringbuffer.go`: mutates the buffer via `writeStep` and
returns `nil` (its single `return` statement is `return nil`). -/
def RingBuffer.Write (rb : RingBuffer T) (value : T) :
    RingBuffer T × Option BufferError :=
  (rb.writeStep value, none)

/-- The `for _, val := range values` loop of `WriteValues`, propagating the
(per the code, always-`nil`) error of each `Write`. -/
def writeLoop (rb : RingBuffer T) : List T → RingBuffer T × Option BufferError
  | [] => (rb, none)
  | v :: vs =>
    match rb.Write v with
    | (rb', none) => writeLoop rb' vs
    | (rb', some e) => (rb', some e)

/-- `WriteValues` from `ringbuffer.go`: rejects batches longer than the
capacity with `errBufferSizeTooSmall`, empty batches with
`errDataLengthIsZero`, and otherwise writes the values in order. -/
def RingBuffer.WriteValues (rb : RingBuffer T) (values : List T) :
    RingBuffer T × Option BufferError :=
  if values.length > rb.capacity then (rb, some .errBufferSizeTooSmall)
  else if values.length = 0 then (rb, some .errDataLengthIsZero)
  else writeLoop rb values

/-- The slot read by iteration `i` of the loop in `Read`:
`index := (rb.writeIndex + rb.capacity - rb.values + i) % rb.capacity`. -/
def RingBuffer.readSlot [Inhabited T] (rb : RingBuffer T) (i : Nat) : T :=
  rb.buffer.getD ((rb.writeIndex + rb.capacity - rb.values + i) % rb.capacity) default

/-- `Read` from `ringbuffer.go`: for `i = 0 .. values-1` append
`buffer[(writeIndex + capacity - values + i) % capacity]` to a fresh slice. -/
def RingBuffer.Read [Inhabited T] (rb : RingBuffer T) : List T :=
  (List.range rb.values).map rb.readSlot

/-- `Reset` from `ringbuffer.go`: fresh default-valued backing slice of the
same capacity, `values = 0`, `writeIndex = 0`, `isEmpty = true`,
`isFull = false`. -/
def RingBuffer.Reset [Inhabited T] (rb : RingBuffer T) : RingBuffer T :=
  { rb with
    buffer := List.replicate rb.capacity default
    values := 0
    writeIndex := 0
    isEmpty := true
    isFull := false }

/-- `Length` from `ringbuffer.go`. -/
def RingBuffer.Length (rb : RingBuffer T) : Nat := rb.values

/-- `Size` from `ringbuffer.go`. -/
def RingBuffer.Size (rb : RingBuffer T) : Nat := rb.capacity

/-- `IsFull` from `ringbuffer.go`. -/
def RingBuffer.IsFull (rb : RingBuffer T) : Bool := rb.isFull

/-- `IsEmpty` from `ringbuffer.go`. -/
def RingBuffer.IsEmpty (rb : RingBuffer T) : Bool := rb.isEmpty

/-- Modelled from the spec: `NewSize` (the spec's `Resize`) is exercised by
`TestNewSize` in `src/ringbuffer_test.go` but its definition is not among the
provided source files.  Per spec §4 `Resize(new_capacity)`: fails with
`InvalidCapacity` (`errBufferSizeIsZero`) when `new_capacity ≤ 0`; fails with
`CapacityTooSmall` (`errBufferSizeTooSmall`) when `new_capacity` is less than
the source's `element_count`; on success produces a new buffer carrying the
same `element_count` and `write_index` as the source, with the elements
physically reflowed into a freshly sized array so that `Read()` on the new
buffer yields the same sequence as `Read()` on the source, and with the
derived status flags of §3. -/
def RingBuffer.NewSize [Inhabited T] (rb : RingBuffer T) (newCapacity : Int) :
    Except BufferError (RingBuffer T) :=
  if newCapacity ≤ 0 then .error .errBufferSizeIsZero
  else if newCapacity < (rb.values : Int) then .error .errBufferSizeTooSmall
  else
    let n := newCapacity.toNat
    let old := rb.Read
    .ok
      { buffer :=
          (List.range rb.values).foldl
            (fun acc i =>
              acc.set ((rb.writeIndex + n - rb.values + i) % n) (old.getD i default))
            (List.replicate n default)
        capacity := n
        values := rb.values
        writeIndex := rb.writeIndex
        isFull := rb.values = n
        isEmpty := rb.values = 0 }

/-- One externally invocable call on a buffer (the operations named by the
spec's invariant clauses); queries leave the state unchanged. -/
inductive Op (T : Type) where
  | write (v : T)
  | writeValues (vs : List T)
  | reset
  | read
  | length
  | size
  | isFull
  | isEmpty

/-- The state after one call. -/
def applyOp [Inhabited T] (rb : RingBuffer T) : Op T → RingBuffer T
  | .write v => (rb.Write v).1
  | .writeValues vs => (rb.WriteValues vs).1
  | .reset => rb.Reset
  | .read => rb
  | .length => rb
  | .size => rb
  | .isFull => rb
  | .isEmpty => rb

/-- The state after a sequence of calls. -/
def runOps [Inhabited T] (rb : RingBuffer T) (ops : List (Op T)) : RingBuffer T :=
  ops.foldl applyOp rb

/-- A state is reachable when it arises from a successfully constructed
buffer by some sequence of calls. -/
def Reachable [Inhabited T] (rb : RingBuffer T) : Prop :=
  ∃ (c : Int) (rb0 : RingBuffer T) (ops : List (Op T)),
    New T c = Except.ok rb0 ∧ rb = runOps rb0 ops

/-- The state transformation of the `WriteValues` loop (each `Write` returns
`nil`, so the loop never exits early). -/
def writeAll (rb : RingBuffer T) (vs : List T) : RingBuffer T :=
  vs.foldl RingBuffer.writeStep rb

/-- Structural well-formedness: positive capacity, backing slice of exactly
`capacity` slots, `values` within `[0, capacity]`, `writeIndex` within
`[0, capacity)`. -/
def WF (rb : RingBuffer T) : Prop :=
  1 ≤ rb.capacity ∧ rb.buffer.length = rb.capacity ∧
    rb.values ≤ rb.capacity ∧ rb.writeIndex < rb.capacity

/-- The flag invariant actually maintained by the code: `isFull` tracks
fullness exactly; `isEmpty` is `true` whenever no element is stored, and for
capacities of at least 2 it tracks emptiness exactly. -/
def FlagInv (rb : RingBuffer T) : Prop :=
  (rb.isFull = true ↔ rb.values = rb.capacity) ∧
    (rb.values = 0 → rb.isEmpty = true) ∧
    (2 ≤ rb.capacity → (rb.isEmpty = true ↔ rb.values = 0))

end RingSpec

namespace RingSpec

variable {T : Type}

lemma updateFlags_buffer (rb : RingBuffer T) : rb.updateFlags.buffer = rb.buffer := by
  unfold RingBuffer.updateFlags
  split
  · rfl
  · split <;> rfl

lemma updateFlags_capacity (rb : RingBuffer T) : rb.updateFlags.capacity = rb.capacity := by
  unfold RingBuffer.updateFlags
  split
  · rfl
  · split <;> rfl

lemma updateFlags_values (rb : RingBuffer T) : rb.updateFlags.values = rb.values := by
  unfold RingBuffer.updateFlags
  split
  · rfl
  · split <;> rfl

lemma updateFlags_writeIndex (rb : RingBuffer T) : rb.updateFlags.writeIndex = rb.writeIndex := by
  unfold RingBuffer.updateFlags
  split
  · rfl
  · split <;> rfl

lemma updateFlags_isFull (rb : RingBuffer T) :
    rb.updateFlags.isFull = if rb.values = rb.capacity then true else rb.isFull := by
  by_cases h : rb.values = rb.capacity <;> simp [RingBuffer.updateFlags, h]
  split <;> rfl

lemma updateFlags_isEmpty (rb : RingBuffer T) :
    rb.updateFlags.isEmpty =
      if rb.values = rb.capacity then rb.isEmpty
      else if rb.values = 0 ∧ rb.writeIndex = rb.values then true else false := by
  by_cases h : rb.values = rb.capacity <;> simp [RingBuffer.updateFlags, h]
  split <;> simp_all

lemma writeStep_buffer (rb : RingBuffer T) (v : T) :
    (rb.writeStep v).buffer = rb.buffer.set rb.writeIndex v := by
  rw [RingBuffer.writeStep, updateFlags_buffer]
  rfl

lemma writeStep_capacity (rb : RingBuffer T) (v : T) :
    (rb.writeStep v).capacity = rb.capacity := by
  rw [RingBuffer.writeStep, updateFlags_capacity]
  rfl

lemma writeStep_values (rb : RingBuffer T) (v : T) :
    (rb.writeStep v).values =
      if rb.values < rb.capacity then rb.values + 1 else rb.values := by
  rw [RingBuffer.writeStep, updateFlags_values]
  rfl

lemma writeStep_writeIndex (rb : RingBuffer T) (v : T) :
    (rb.writeStep v).writeIndex = (rb.writeIndex + 1) % rb.capacity := by
  rw [RingBuffer.writeStep, updateFlags_writeIndex]
  rfl

lemma mod_two_cases {a n : Nat} (h : a < 2 * n) :
    a % n = if a < n then a else a - n := by
  split
  · exact Nat.mod_eq_of_lt ‹_›
  · rw [Nat.mod_eq_sub_mod (by omega)]
    exact Nat.mod_eq_of_lt (by omega)

lemma add_mod_ne_self {w d n : Nat} (hw : w < n) (hd1 : 1 ≤ d) (hd2 : d ≤ n - 1) :
    (w + d) % n ≠ w := by
  rw [mod_two_cases (n := n) (by omega)]
  split <;> omega

lemma getD_set_self {l : List T} {i : Nat} (a d : T) (h : i < l.length) :
    (l.set i a).getD i d = a := by
  rw [List.getD_eq_getElem _ _ (by simpa), List.getElem_set_self]

lemma getD_set_ne {l : List T} {i j : Nat} (a d : T) (h : i ≠ j) :
    (l.set i a).getD j d = l.getD j d := by
  by_cases hj : j < l.length
  · rw [List.getD_eq_getElem _ _ (by simpa), List.getD_eq_getElem _ _ hj,
      List.getElem_set_ne h]
  · rw [List.getD_eq_default _ _ (by simpa using Nat.le_of_not_lt hj),
      List.getD_eq_default _ _ (Nat.le_of_not_lt hj)]

lemma length_Read [Inhabited T] (rb : RingBuffer T) : rb.Read.length = rb.values := by
  simp [RingBuffer.Read]

lemma wf_writeStep {rb : RingBuffer T} (h : WF rb) (v : T) : WF (rb.writeStep v) := by
  obtain ⟨h1, h2, h3, h4⟩ := h
  refine ⟨?_, ?_, ?_, ?_⟩
  · rw [writeStep_capacity]; exact h1
  · rw [writeStep_buffer, writeStep_capacity, List.length_set]; exact h2
  · rw [writeStep_values, writeStep_capacity]; split <;> omega
  · rw [writeStep_writeIndex, writeStep_capacity]; exact Nat.mod_lt _ (by omega)

lemma writeAll_cons (rb : RingBuffer T) (v : T) (vs : List T) :
    writeAll rb (v :: vs) = writeAll (rb.writeStep v) vs := rfl

lemma writeLoop_eq (rb : RingBuffer T) (vs : List T) :
    writeLoop rb vs = (writeAll rb vs, none) := by
  induction vs generalizing rb with
  | nil => rfl
  | cons v vs ih => rw [writeLoop, RingBuffer.Write]; exact ih _

lemma WriteValues_fst (rb : RingBuffer T) (vs : List T) :
    (rb.WriteValues vs).1 =
      if vs.length > rb.capacity then rb
      else if vs.length = 0 then rb
      else writeAll rb vs := by
  rw [RingBuffer.WriteValues]
  split
  · rfl
  · split
    · rfl
    · rw [writeLoop_eq]

lemma wf_writeAll {rb : RingBuffer T} (h : WF rb) (vs : List T) : WF (writeAll rb vs) := by
  induction vs generalizing rb with
  | nil => exact h
  | cons v vs ih => rw [writeAll_cons]; exact ih (wf_writeStep h v)

lemma capacity_writeAll (rb : RingBuffer T) (vs : List T) :
    (writeAll rb vs).capacity = rb.capacity := by
  induction vs generalizing rb with
  | nil => rfl
  | cons v vs ih => rw [writeAll_cons, ih, writeStep_capacity]

lemma values_writeAll {rb : RingBuffer T} (h : WF rb) (vs : List T) :
    (writeAll rb vs).values = min (rb.values + vs.length) rb.capacity := by
  induction vs generalizing rb with
  | nil =>
    have := h.2.2.1
    simp [writeAll]
    omega
  | cons v vs ih =>
    rw [writeAll_cons, ih (wf_writeStep h v), writeStep_values, writeStep_capacity]
    have := h.2.2.1
    split <;> (simp only [List.length_cons]; omega)

end RingSpec

namespace RingSpec

variable {T : Type}

lemma Read_writeStep_of_lt [Inhabited T] {rb : RingBuffer T} (hwf : WF rb)
    (hlt : rb.values < rb.capacity) (v : T) :
    (rb.writeStep v).Read = rb.Read ++ [v] := by
  obtain ⟨hc, hlen, hv, hw⟩ := hwf
  have hval : (rb.writeStep v).values = rb.values + 1 := by
    rw [writeStep_values]; simp [hlt]
  unfold RingBuffer.Read
  rw [hval, List.range_succ, List.map_append, List.map_cons, List.map_nil]
  congr 1
  · apply List.map_congr_left
    intro i hi
    rw [List.mem_range] at hi
    unfold RingBuffer.readSlot
    rw [writeStep_buffer, writeStep_writeIndex, writeStep_capacity, hval]
    have hidx : ((rb.writeIndex + 1) % rb.capacity + rb.capacity - (rb.values + 1) + i)
          % rb.capacity
        = (rb.writeIndex + (rb.capacity - rb.values + i)) % rb.capacity := by
      have h1 : (rb.writeIndex + 1) % rb.capacity + rb.capacity - (rb.values + 1) + i
          = (rb.writeIndex + 1) % rb.capacity + (rb.capacity - (rb.values + 1) + i) := by
        omega
      rw [h1, Nat.mod_add_mod]
      congr 1
      omega
    rw [hidx]
    rw [getD_set_ne _ _ (Ne.symm (add_mod_ne_self hw (by omega) (by omega)))]
    congr 2
    omega
  · unfold RingBuffer.readSlot
    rw [writeStep_buffer, writeStep_writeIndex, writeStep_capacity, hval]
    have hidx : ((rb.writeIndex + 1) % rb.capacity + rb.capacity - (rb.values + 1)
          + rb.values) % rb.capacity = rb.writeIndex := by
      have h1 : (rb.writeIndex + 1) % rb.capacity + rb.capacity - (rb.values + 1)
            + rb.values
          = (rb.writeIndex + 1) % rb.capacity + (rb.capacity - 1) := by omega
      rw [h1, Nat.mod_add_mod]
      have h2 : rb.writeIndex + 1 + (rb.capacity - 1) = rb.writeIndex + rb.capacity := by
        omega
      rw [h2, Nat.add_mod_right]
      exact Nat.mod_eq_of_lt hw
    rw [hidx, getD_set_self _ _ (by omega)]

lemma Read_getD [Inhabited T] (rb : RingBuffer T) {j : Nat} (hj : j < rb.values) :
    rb.Read.getD j default = rb.readSlot j := by
  rw [List.getD_eq_getElem _ _ (by rw [length_Read]; exact hj)]
  unfold RingBuffer.Read
  simp

lemma ext_getD {l₁ l₂ : List T} (d : T) (hlen : l₁.length = l₂.length)
    (h : ∀ i, i < l₁.length → l₁.getD i d = l₂.getD i d) : l₁ = l₂ := by
  apply List.ext_getElem hlen
  intro i h1 h2
  have h3 := h i h1
  rw [List.getD_eq_getElem _ _ h1, List.getD_eq_getElem _ _ h2] at h3
  exact h3

lemma getD_drop (l : List T) (n i : Nat) (d : T) :
    (l.drop n).getD i d = l.getD (n + i) d := by
  rw [List.getD_eq_getElem?_getD, List.getD_eq_getElem?_getD, List.getElem?_drop]

lemma getD_append_left {l m : List T} {i : Nat} (d : T) (h : i < l.length) :
    (l ++ m).getD i d = l.getD i d := by
  rw [List.getD_eq_getElem?_getD, List.getD_eq_getElem?_getD,
    List.getElem?_append_left h]

lemma getD_append_right {l m : List T} {i : Nat} (d : T) (h : l.length ≤ i) :
    (l ++ m).getD i d = m.getD (i - l.length) d := by
  rw [List.getD_eq_getElem?_getD, List.getD_eq_getElem?_getD,
    List.getElem?_append_right h]

lemma Read_writeStep_of_full [Inhabited T] {rb : RingBuffer T} (hwf : WF rb)
    (hfull : rb.values = rb.capacity) (v : T) :
    (rb.writeStep v).Read = rb.Read.drop 1 ++ [v] := by
  obtain ⟨hc, hlen, hv, hw⟩ := hwf
  have hval : (rb.writeStep v).values = rb.capacity := by
    rw [writeStep_values]
    simp [hfull]
  apply ext_getD (default : T)
  · simp [length_Read, hval, hfull]
    omega
  · intro i hi
    rw [length_Read, hval] at hi
    rw [Read_getD _ (by rw [hval]; exact hi)]
    unfold RingBuffer.readSlot
    rw [writeStep_buffer, writeStep_writeIndex, writeStep_capacity, hval]
    by_cases hilt : i < rb.capacity - 1
    · rw [getD_append_left _ (by simp only [List.length_drop, length_Read, hfull]; omega),
        getD_drop, Read_getD rb (show 1 + i < rb.values by omega)]
      unfold RingBuffer.readSlot
      have hidx : ((rb.writeIndex + 1) % rb.capacity + rb.capacity - rb.capacity + i)
            % rb.capacity
          = (rb.writeIndex + (1 + i)) % rb.capacity := by
        have h3 : (rb.writeIndex + 1) % rb.capacity + rb.capacity - rb.capacity + i
            = (rb.writeIndex + 1) % rb.capacity + i := by omega
        rw [h3, Nat.mod_add_mod]
        congr 1
        omega
      rw [hidx]
      rw [getD_set_ne _ _ (Ne.symm (add_mod_ne_self hw (by omega) (by omega)))]
      congr 2
      omega
    · rw [getD_append_right _ (by simp only [List.length_drop, length_Read, hfull]; omega)]
      have hlast : ([v].getD (i - (rb.Read.drop 1).length) default) = v := by
        rw [show i - (rb.Read.drop 1).length = 0 from by
          simp only [List.length_drop, length_Read, hfull]
          omega]
        rfl
      have hidx : ((rb.writeIndex + 1) % rb.capacity + rb.capacity - rb.capacity + i)
            % rb.capacity = rb.writeIndex := by
        have h3 : (rb.writeIndex + 1) % rb.capacity + rb.capacity - rb.capacity + i
            = (rb.writeIndex + 1) % rb.capacity + (rb.capacity - 1) := by omega
        rw [h3, Nat.mod_add_mod]
        have h4 : rb.writeIndex + 1 + (rb.capacity - 1)
            = rb.writeIndex + rb.capacity := by omega
        rw [h4, Nat.add_mod_right]
        exact Nat.mod_eq_of_lt hw
      rw [hidx, getD_set_self _ _ (by omega), hlast]

end RingSpec

namespace RingSpec

variable {T : Type}

lemma drop_tail_append (l m : List T) (hl : 1 ≤ l.length) (k : Nat) :
    (l.drop 1 ++ m).drop k = (l ++ m).drop (k + 1) := by
  rw [List.drop_append_eq_append_drop, List.drop_append_eq_append_drop, List.drop_drop]
  have h1 : List.drop (1 + k) l = List.drop (k + 1) l := by
    congr 1
    omega
  have h2 : List.drop (k - (l.drop 1).length) m = List.drop (k + 1 - l.length) m := by
    congr 1
    simp only [List.length_drop]
    omega
  rw [h1, h2]

lemma Read_writeAll [Inhabited T] {rb : RingBuffer T} (hwf : WF rb) (vs : List T) :
    (writeAll rb vs).Read
      = (rb.Read ++ vs).drop
          (rb.values + vs.length - min (rb.values + vs.length) rb.capacity) := by
  induction vs generalizing rb with
  | nil =>
    have hle := hwf.2.2.1
    have h0 : rb.values + ([] : List T).length
        - min (rb.values + ([] : List T).length) rb.capacity = 0 := by
      simp only [List.length_nil, Nat.add_zero]
      omega
    rw [h0]
    simp [writeAll]
  | cons v vs ih =>
    rw [writeAll_cons, ih (wf_writeStep hwf v), writeStep_capacity]
    by_cases hlt : rb.values < rb.capacity
    · have hval : (rb.writeStep v).values = rb.values + 1 := by
        rw [writeStep_values]; simp [hlt]
      rw [hval, Read_writeStep_of_lt hwf hlt, List.append_assoc]
      congr 1
      simp only [List.length_cons]
      omega
    · have hfull : rb.values = rb.capacity := by
        have := hwf.2.2.1
        omega
      have hval : (rb.writeStep v).values = rb.capacity := by
        rw [writeStep_values]; simp [hfull]
      have hc1 : 1 ≤ rb.capacity := hwf.1
      have hA : rb.capacity + vs.length
          - min (rb.capacity + vs.length) rb.capacity = vs.length := by omega
      have hB : rb.values + (v :: vs).length
          - min (rb.values + (v :: vs).length) rb.capacity = vs.length + 1 := by
        simp only [List.length_cons]
        omega
      rw [hval, hA, hB, Read_writeStep_of_full hwf hfull, List.append_assoc]
      have hlR : 1 ≤ rb.Read.length := by
        rw [length_Read]
        omega
      simpa using drop_tail_append rb.Read ([v] ++ vs) hlR vs.length

lemma writeStep_isFull (rb : RingBuffer T) (v : T) :
    (rb.writeStep v).isFull =
      if (if rb.values < rb.capacity then rb.values + 1 else rb.values) = rb.capacity
        then true else rb.isFull := by
  rw [RingBuffer.writeStep, updateFlags_isFull]
  rfl

lemma writeStep_isEmpty (rb : RingBuffer T) (v : T) :
    (rb.writeStep v).isEmpty =
      if (if rb.values < rb.capacity then rb.values + 1 else rb.values) = rb.capacity
        then rb.isEmpty
      else if (if rb.values < rb.capacity then rb.values + 1 else rb.values) = 0
          ∧ (rb.writeIndex + 1) % rb.capacity
            = (if rb.values < rb.capacity then rb.values + 1 else rb.values)
        then true else false := by
  rw [RingBuffer.writeStep, updateFlags_isEmpty]
  rfl

lemma flagInv_writeStep {rb : RingBuffer T} (hwf : WF rb) (hfi : FlagInv rb) (v : T) :
    FlagInv (rb.writeStep v) := by
  obtain ⟨hc, hlen, hv, hw⟩ := hwf
  obtain ⟨hf, he0, he2⟩ := hfi
  unfold FlagInv
  rw [writeStep_isFull, writeStep_isEmpty, writeStep_values, writeStep_capacity]
  by_cases hlt : rb.values < rb.capacity <;> simp only [hlt, if_true, if_false]
  · refine ⟨?_, ?_, ?_⟩
    · split_ifs with h1
      · simpa using h1
      · rw [hf]
        omega
    · intro h0
      omega
    · intro h2le
      split_ifs with h1 h2
      · rw [he2 h2le]
        simp only [iff_false]
        omega
      · exact h2.1.elim
      · exact Iff.rfl
  · refine ⟨?_, ?_, ?_⟩
    · split_ifs with h1
      · simpa using h1
      · exact hf
    · intro h0
      omega
    · intro h2le
      split_ifs with h1 h2
      · exact he2 h2le
      · exact absurd h2.1 (by omega)
      · simp only [Bool.false_eq_true, false_iff]
        omega

end RingSpec

namespace RingSpec

variable {T : Type}

lemma wf_Reset [Inhabited T] {rb : RingBuffer T} (h : WF rb) : WF rb.Reset := by
  obtain ⟨h1, h2, h3, h4⟩ := h
  exact ⟨h1, by simp [RingBuffer.Reset], by simp [RingBuffer.Reset],
    by simp [RingBuffer.Reset]; omega⟩

lemma flagInv_Reset [Inhabited T] {rb : RingBuffer T} (h : WF rb) : FlagInv rb.Reset := by
  have hc := h.1
  refine ⟨?_, ?_, ?_⟩ <;> simp [RingBuffer.Reset]
  omega

lemma New_ok [Inhabited T] {c : Int} {rb0 : RingBuffer T} (h : New T c = Except.ok rb0) :
    1 ≤ c ∧ rb0 = ⟨List.replicate c.toNat default, c.toNat, 0, 0, false, true⟩ := by
  unfold New at h
  split at h
  · cases h
  · rename_i hc
    cases h
    exact ⟨by omega, rfl⟩

lemma wf_New [Inhabited T] {c : Int} {rb0 : RingBuffer T} (h : New T c = Except.ok rb0) :
    WF rb0 := by
  obtain ⟨hc, rfl⟩ := New_ok h
  refine ⟨by simp; omega, by simp, by simp, by simp; omega⟩

lemma flagInv_New [Inhabited T] {c : Int} {rb0 : RingBuffer T}
    (h : New T c = Except.ok rb0) : FlagInv rb0 := by
  obtain ⟨hc, rfl⟩ := New_ok h
  refine ⟨by simp; omega, by simp, by simp⟩

lemma flagInv_writeAll {rb : RingBuffer T} (hwf : WF rb) (hfi : FlagInv rb)
    (vs : List T) : FlagInv (writeAll rb vs) := by
  induction vs generalizing rb with
  | nil => exact hfi
  | cons v vs ih =>
    rw [writeAll_cons]
    exact ih (wf_writeStep hwf v) (flagInv_writeStep hwf hfi v)

lemma preserve_applyOp [Inhabited T] {rb : RingBuffer T} (h : WF rb ∧ FlagInv rb)
    (op : Op T) : WF (applyOp rb op) ∧ FlagInv (applyOp rb op) := by
  obtain ⟨hwf, hfi⟩ := h
  cases op with
  | write v => exact ⟨wf_writeStep hwf v, flagInv_writeStep hwf hfi v⟩
  | writeValues vs =>
    show WF (rb.WriteValues vs).1 ∧ FlagInv (rb.WriteValues vs).1
    rw [WriteValues_fst]
    split
    · exact ⟨hwf, hfi⟩
    · split
      · exact ⟨hwf, hfi⟩
      · exact ⟨wf_writeAll hwf vs, flagInv_writeAll hwf hfi vs⟩
  | reset => exact ⟨wf_Reset hwf, flagInv_Reset hwf⟩
  | read => exact ⟨hwf, hfi⟩
  | length => exact ⟨hwf, hfi⟩
  | size => exact ⟨hwf, hfi⟩
  | isFull => exact ⟨hwf, hfi⟩
  | isEmpty => exact ⟨hwf, hfi⟩

lemma preserve_runOps [Inhabited T] {rb : RingBuffer T} (h : WF rb ∧ FlagInv rb)
    (ops : List (Op T)) : WF (runOps rb ops) ∧ FlagInv (runOps rb ops) := by
  induction ops generalizing rb with
  | nil => exact h
  | cons op ops ih => exact ih (preserve_applyOp h op)

lemma reachable_wf [Inhabited T] {rb : RingBuffer T} (h : Reachable rb) :
    WF rb ∧ FlagInv rb := by
  obtain ⟨c, rb0, ops, hNew, rfl⟩ := h
  exact preserve_runOps ⟨wf_New hNew, flagInv_New hNew⟩ ops

lemma capacity_applyOp [Inhabited T] (rb : RingBuffer T) (op : Op T) :
    (applyOp rb op).capacity = rb.capacity := by
  cases op with
  | write v => exact writeStep_capacity rb v
  | writeValues vs =>
    show (rb.WriteValues vs).1.capacity = rb.capacity
    rw [WriteValues_fst]
    split
    · rfl
    · split
      · rfl
      · exact capacity_writeAll rb vs
  | reset => rfl
  | read => rfl
  | length => rfl
  | size => rfl
  | isFull => rfl
  | isEmpty => rfl

lemma capacity_runOps [Inhabited T] (rb : RingBuffer T) (ops : List (Op T)) :
    (runOps rb ops).capacity = rb.capacity := by
  induction ops generalizing rb with
  | nil => rfl
  | cons op ops ih =>
    show (runOps (applyOp rb op) ops).capacity = rb.capacity
    rw [ih, capacity_applyOp]

end RingSpec

namespace RingSpec

variable {T : Type}

lemma add_left_mod_inj {n a i j : Nat} (hn : 0 < n) (hi : i < n) (hj : j < n)
    (h : (a + i) % n = (a + j) % n) : i = j := by
  have ha : a % n < n := Nat.mod_lt _ hn
  have h1 : (a % n + i) % n = (a % n + j) % n := by
    rw [Nat.mod_add_mod, Nat.mod_add_mod]
    exact h
  have h2 : (a % n + i) % n = if a % n + i < n then a % n + i else a % n + i - n :=
    mod_two_cases (by omega)
  have h3 : (a % n + j) % n = if a % n + j < n then a % n + j else a % n + j - n :=
    mod_two_cases (by omega)
  rw [h2, h3] at h1
  split at h1 <;> split at h1 <;> omega

lemma length_foldl_set (base : List T) (f : Nat → Nat) (g : Nat → T) (v : Nat) :
    ((List.range v).foldl (fun acc i => acc.set (f i) (g i)) base).length
      = base.length := by
  induction v with
  | zero => rfl
  | succ v ih =>
    rw [List.range_succ, List.foldl_append]
    simp only [List.foldl_cons, List.foldl_nil, List.length_set]
    exact ih

lemma getD_foldl_set (base : List T) (f : Nat → Nat) (g : Nat → T) (d : T) (v : Nat)
    (hinj : ∀ i, i < v → ∀ j, j < v → f i = f j → i = j)
    (hlen : ∀ i, i < v → f i < base.length) :
    ∀ j, j < v →
      ((List.range v).foldl (fun acc i => acc.set (f i) (g i)) base).getD (f j) d
        = g j := by
  induction v with
  | zero => intro j hj; omega
  | succ v ih =>
    intro j hj
    rw [List.range_succ, List.foldl_append]
    simp only [List.foldl_cons, List.foldl_nil]
    by_cases hjv : j = v
    · subst hjv
      apply getD_set_self
      rw [length_foldl_set]
      exact hlen j (by omega)
    · have hne : f v ≠ f j := fun he =>
        hjv ((hinj v (by omega) j (by omega) he).symm ▸ rfl)
      rw [getD_set_ne _ _ hne]
      exact ih (fun i hi j hj h => hinj i (by omega) j (by omega) h)
        (fun i hi => hlen i (by omega)) j (by omega)

lemma NewSize_ok [Inhabited T] {rb : RingBuffer T} {nc : Int}
    (h1 : 1 ≤ nc) (h2 : (rb.values : Int) ≤ nc) :
    ∃ rb', rb.NewSize nc = Except.ok rb' ∧ rb'.Read = rb.Read
      ∧ rb'.values = rb.values ∧ rb'.writeIndex = rb.writeIndex
      ∧ rb'.capacity = nc.toNat := by
  have hvn : rb.values ≤ nc.toNat := by omega
  have hn : 0 < nc.toNat := by omega
  unfold RingBuffer.NewSize
  rw [if_neg (by omega), if_neg (by omega)]
  refine ⟨_, rfl, ?_, rfl, rfl, rfl⟩
  show (List.range rb.values).map _ = rb.Read
  conv_rhs => rw [show rb.Read = (List.range rb.values).map rb.readSlot from rfl]
  apply List.map_congr_left
  intro i hi
  rw [List.mem_range] at hi
  have hstep := getD_foldl_set (List.replicate nc.toNat (default : T))
    (fun i => (rb.writeIndex + nc.toNat - rb.values + i) % nc.toNat)
    (fun i => rb.Read.getD i default) default rb.values
    (fun i hi' j hj' h => by
      simp only at h
      exact add_left_mod_inj hn (by omega) (by omega) h)
    (fun i hi' => by
      rw [List.length_replicate]
      exact Nat.mod_lt _ hn)
    i hi
  simp only at hstep
  show ((List.range rb.values).foldl _ (List.replicate nc.toNat default)).getD
      ((rb.writeIndex + nc.toNat - rb.values + i) % nc.toNat) default = rb.readSlot i
  rw [hstep, Read_getD rb hi]

end RingSpec

namespace RingSpec

variable {T : Type}

lemma emod_index_toNat {w v i c : Nat} (hv : v ≤ c) :
    (((w : Int) - (v : Int) + (i : Int)) % (c : Int)).toNat
      = (w + c - v + i) % c := by
  have h1 : (w : Int) - (v : Int) + (i : Int)
      = ((w + c - v + i : Nat) : Int) - (c : Int) := by
    push_cast
    omega
  rw [h1, Int.sub_emod, Int.emod_self, sub_zero, Int.emod_emod_of_dvd _ dvd_rfl]
  rw [show ((w + c - v + i : Nat) : Int) % (c : Int)
      = (((w + c - v + i) % c : Nat) : Int) from by push_cast; ring]
  exact Int.toNat_natCast _

end RingSpec

namespace RingSpec

variable {T : Type}

/-- C9: `Write` is infallible on a constructed buffer: for every buffer state
and every value, the error returned by `Write` is `nil` (`none`), including
when the buffer is full. -/
theorem c9_write_infallible {T : Type} (rb : RingBuffer T) (v : T) :
    (rb.Write v).2 = none := rfl

/-- C7: `New` fails with `errBufferSizeIsZero` (the spec's `InvalidCapacity`)
exactly when the requested capacity is ≤ 0, and on success (capacity ≥ 1)
returns a buffer of `capacity` default-valued slots with `element_count = 0`
and `write_index = 0`, whose immediate `Read()` is empty, with `IsEmpty()`
true and `IsFull()` false. -/
theorem c7_construct_validation {T : Type} [Inhabited T] (c : Int) :
    (c ≤ 0 ↔ New T c = Except.error BufferError.errBufferSizeIsZero)
    ∧ (1 ≤ c → ∃ rb, New T c = Except.ok rb
        ∧ rb.buffer = List.replicate c.toNat default
        ∧ rb.capacity = c.toNat ∧ rb.values = 0 ∧ rb.writeIndex = 0
        ∧ rb.Read = [] ∧ rb.IsEmpty = true ∧ rb.IsFull = false) := by
  constructor
  · constructor
    · intro h
      simp [New, h]
    · intro h
      by_contra hc
      unfold New at h
      rw [if_neg hc] at h
      cases h
  · intro h
    refine ⟨⟨List.replicate c.toNat default, c.toNat, 0, 0, false, true⟩, ?_,
      rfl, rfl, rfl, rfl, rfl, rfl, rfl⟩
    unfold New
    rw [if_neg (by omega)]

theorem c7_construct_validation_witness :
    ∃ rb : RingBuffer String, New String 3 = Except.ok rb
      ∧ rb.buffer = List.replicate (3 : Int).toNat default
      ∧ rb.capacity = (3 : Int).toNat ∧ rb.values = 0 ∧ rb.writeIndex = 0
      ∧ rb.Read = [] ∧ rb.IsEmpty = true ∧ rb.IsFull = false :=
  (c7_construct_validation (T := String) 3).2 (by decide)

/-- C5: `WriteValues` (the spec's `WriteMany`) fails with
`errDataLengthIsZero` (`EmptyInput`) exactly when the batch is empty and with
`errBufferSizeTooSmall` (`CapacityExceeded`) exactly when the batch is longer
than the capacity, and in both failure cases returns before writing anything,
leaving the buffer state exactly as it was. -/
theorem c5_writeMany_validation {T : Type} (rb : RingBuffer T) (vs : List T) :
    ((rb.WriteValues vs).2 = some BufferError.errDataLengthIsZero ↔ vs.length = 0)
    ∧ ((rb.WriteValues vs).2 = some BufferError.errBufferSizeTooSmall
        ↔ vs.length > rb.capacity)
    ∧ (vs.length = 0 ∨ vs.length > rb.capacity → (rb.WriteValues vs).1 = rb) := by
  unfold RingBuffer.WriteValues
  by_cases h1 : vs.length > rb.capacity
  · rw [if_pos h1]
    exact ⟨⟨fun h => by simp at h, fun h0 => absurd h0 (by omega)⟩,
      ⟨fun _ => h1, fun _ => rfl⟩, fun _ => rfl⟩
  · rw [if_neg h1]
    by_cases h2 : vs.length = 0
    · rw [if_pos h2]
      exact ⟨⟨fun _ => h2, fun _ => rfl⟩,
        ⟨fun h => by simp at h, fun hgt => absurd hgt h1⟩, fun _ => rfl⟩
    · rw [if_neg h2, writeLoop_eq]
      exact ⟨⟨fun h => by simp at h, fun h0 => absurd h0 h2⟩,
        ⟨fun h => by simp at h, fun hgt => absurd hgt h1⟩,
        fun h => absurd h (by omega)⟩

theorem c5_writeMany_validation_witness :
    (RingBuffer.WriteValues (⟨List.replicate 3 "", 3, 0, 0, false, true⟩ :
        RingBuffer String) []).1
      = ⟨List.replicate 3 "", 3, 0, 0, false, true⟩ :=
  (c5_writeMany_validation _ []).2.2 (Or.inl rfl)

/-- C6: `NewSize` (the spec's `Resize`, modelled from the spec) fails with
`errBufferSizeTooSmall` (`CapacityTooSmall`) whenever
`0 < new_capacity < element_count`, and with `errBufferSizeIsZero`
(`InvalidCapacity`) whenever `new_capacity ≤ 0`; being a pure function of the
source buffer, it leaves the source unchanged. -/
theorem c6_resize_down_rejected {T : Type} [Inhabited T]
    (rb : RingBuffer T) (nc : Int) :
    (0 < nc → nc < (rb.values : Int) →
      rb.NewSize nc = Except.error BufferError.errBufferSizeTooSmall)
    ∧ (nc ≤ 0 → rb.NewSize nc = Except.error BufferError.errBufferSizeIsZero) := by
  constructor
  · intro h1 h2
    unfold RingBuffer.NewSize
    rw [if_neg (by omega), if_pos h2]
  · intro h
    unfold RingBuffer.NewSize
    rw [if_pos h]

theorem c6_resize_down_rejected_witness :
    RingBuffer.NewSize (⟨["a", "b", "c", "d", "e"], 5, 5, 0, true, false⟩ :
        RingBuffer String) 2
      = Except.error BufferError.errBufferSizeTooSmall :=
  (c6_resize_down_rejected _ 2).1 (by decide) (by decide)

end RingSpec

namespace RingSpec

variable {T : Type}

/-- C4 counterexample: a freshly constructed capacity-1 buffer has
`element_count = 0`, so `new_capacity = 0` satisfies
`new_capacity ≥ element_count`, yet `NewSize 0` does not succeed — it fails
with `errBufferSizeIsZero` (`InvalidCapacity`), because the positivity check
comes first. -/
theorem c4_resize_zero_fails :
    (New String 1).map (fun rb0 => (rb0.values, rb0.NewSize 0))
      = Except.ok (0, Except.error BufferError.errBufferSizeIsZero) := rfl

/-- C4 (amended): for every reachable source buffer and every
`new_capacity ≥ 1` with `new_capacity ≥ element_count`, `NewSize` (the
spec's `Resize`, modelled from the spec) succeeds with a new buffer whose
`Read()` equals the source's, with the same `element_count` and
`write_index`; in particular a capacity-3 buffer holding x,y,z resized to 5
still reads x,y,z, and two further writes read x,y,z,w1,w2. -/
theorem c4_resize_up_preserves :
    (∀ (S : Type) [Inhabited S] (rb : RingBuffer S) (nc : Int), Reachable rb →
      1 ≤ nc → (rb.values : Int) ≤ nc →
      ∃ rb', rb.NewSize nc = Except.ok rb' ∧ rb'.Read = rb.Read
        ∧ rb'.values = rb.values ∧ rb'.writeIndex = rb.writeIndex)
    ∧ ((New String 3).map (fun rb0 =>
        ((((rb0.Write "x").1.Write "y").1.Write "z").1.NewSize 5).map (fun rb' =>
          (rb'.Read, ((rb'.Write "w1").1.Write "w2").1.Read)))
      = Except.ok (Except.ok (["x", "y", "z"], ["x", "y", "z", "w1", "w2"]))) := by
  constructor
  · intro S _ rb nc _ h1 h2
    obtain ⟨rb', h⟩ := NewSize_ok h1 h2
    exact ⟨rb', h.1, h.2.1, h.2.2.1, h.2.2.2.1⟩
  · rfl

theorem c4_resize_up_preserves_witness :
    ∃ rb', RingBuffer.NewSize (⟨["a", "b", ""], 3, 2, 2, false, false⟩ :
        RingBuffer String) 5 = Except.ok rb'
      ∧ rb'.Read = (⟨["a", "b", ""], 3, 2, 2, false, false⟩ :
          RingBuffer String).Read
      ∧ rb'.values = 2 ∧ rb'.writeIndex = 2 :=
  c4_resize_up_preserves.1 String ⟨["a", "b", ""], 3, 2, 2, false, false⟩ 5
    ⟨3, ⟨List.replicate 3 "", 3, 0, 0, false, true⟩,
      [Op.write "a", Op.write "b"], rfl, rfl⟩
    (by decide) (by decide)

/-- C2: a `Write` into a full reachable buffer places the value at
`write_index` (the slot of the oldest element), keeps `element_count` equal
to `capacity`, and the new `Read()` drops exactly the previously oldest
element; in particular with capacity 3 and writes a,b,c,d, `Read()` returns
b,c,d. -/
theorem c2_overwrite_oldest :
    (∀ (S : Type) [Inhabited S] (rb : RingBuffer S) (v : S), Reachable rb →
      rb.values = rb.capacity →
      (rb.Write v).1.buffer.getD rb.writeIndex default = v
      ∧ (rb.Write v).1.values = rb.capacity
      ∧ (rb.Write v).1.Read = rb.Read.drop 1 ++ [v])
    ∧ ((New String 3).map (fun rb0 =>
        ((((rb0.Write "a").1.Write "b").1.Write "c").1.Write "d").1.Read)
      = Except.ok ["b", "c", "d"]) := by
  constructor
  · intro S _ rb v hreach hfull
    obtain ⟨hwf, _⟩ := reachable_wf hreach
    have h1 : (rb.Write v).1 = rb.writeStep v := rfl
    rw [h1, writeStep_buffer, writeStep_values]
    refine ⟨?_, ?_, ?_⟩
    · exact getD_set_self _ _ (by have := hwf.2.1; have := hwf.2.2.2; omega)
    · simp [hfull]
    · exact Read_writeStep_of_full hwf hfull v
  · rfl

theorem c2_overwrite_oldest_witness :
    (RingBuffer.Write (⟨["a", "b", "c"], 3, 3, 0, true, false⟩ :
        RingBuffer String) "d").1.buffer.getD 0 default = "d"
    ∧ (RingBuffer.Write (⟨["a", "b", "c"], 3, 3, 0, true, false⟩ :
        RingBuffer String) "d").1.values = 3
    ∧ (RingBuffer.Write (⟨["a", "b", "c"], 3, 3, 0, true, false⟩ :
        RingBuffer String) "d").1.Read
      = (⟨["a", "b", "c"], 3, 3, 0, true, false⟩ :
          RingBuffer String).Read.drop 1 ++ ["d"] :=
  c2_overwrite_oldest.1 String ⟨["a", "b", "c"], 3, 3, 0, true, false⟩ "d"
    ⟨3, ⟨List.replicate 3 "", 3, 0, 0, false, true⟩,
      [Op.write "a", Op.write "b", Op.write "c"], rfl, rfl⟩ rfl

end RingSpec

namespace RingSpec

variable {T : Type}

/-- C1: FIFO order — writing v1..vn (n ≤ C) into a fresh buffer and calling
`Read()` yields exactly v1..vn; and in general, on every reachable state,
`Read()` has length `element_count` and its i-th element is
`storage[(write_index - element_count + i) mod capacity]`. -/
theorem c1_read_fifo_order :
    (∀ (S : Type) [Inhabited S] (c : Int) (rb0 : RingBuffer S) (vs : List S),
      New S c = Except.ok rb0 → (vs.length : Int) ≤ c →
      (writeAll rb0 vs).Read = vs)
    ∧ (∀ (S : Type) [Inhabited S] (rb : RingBuffer S), Reachable rb →
      rb.Read.length = rb.values
      ∧ ∀ i, i < rb.values →
        rb.Read.getD i default
          = rb.buffer.getD
              ((((rb.writeIndex : Int) - (rb.values : Int) + (i : Int))
                % (rb.capacity : Int)).toNat) default) := by
  constructor
  · intro S _ c rb0 vs hNew hle
    have hwf := wf_New hNew
    obtain ⟨hc, rfl⟩ := New_ok hNew
    have hlen : vs.length ≤ c.toNat := by omega
    rw [Read_writeAll hwf vs]
    show (([] : List S) ++ vs).drop
        (0 + vs.length - min (0 + vs.length) c.toNat) = vs
    rw [show 0 + vs.length - min (0 + vs.length) c.toNat = 0 from by omega]
    simp
  · intro S _ rb hreach
    obtain ⟨hwf, _⟩ := reachable_wf hreach
    refine ⟨length_Read rb, ?_⟩
    intro i hi
    rw [Read_getD rb hi, emod_index_toNat hwf.2.2.1]
    rfl

theorem c1_read_fifo_order_witness :
    (writeAll (⟨List.replicate 3 "", 3, 0, 0, false, true⟩ :
        RingBuffer String) ["a", "b"]).Read = ["a", "b"]
    ∧ (⟨["a", "b", ""], 3, 2, 2, false, false⟩ : RingBuffer String).Read.length = 2 :=
  ⟨c1_read_fifo_order.1 String 3 ⟨List.replicate 3 "", 3, 0, 0, false, true⟩
      ["a", "b"] rfl (by decide),
    (c1_read_fifo_order.2 String ⟨["a", "b", ""], 3, 2, 2, false, false⟩
      ⟨3, ⟨List.replicate 3 "", 3, 0, 0, false, true⟩,
        [Op.write "a", Op.write "b"], rfl, rfl⟩).1⟩

/-- C8: on every reachable state the bounds `element_count ≤ capacity`,
`write_index < capacity` and `capacity ≥ 1` hold (the lower bounds 0 ≤ _
hold by the `Nat` representation), and no sequence of calls ever changes
the capacity of an instance. -/
theorem c8_bounds_invariant :
    (∀ (S : Type) [Inhabited S] (rb : RingBuffer S), Reachable rb →
      rb.values ≤ rb.capacity ∧ rb.writeIndex < rb.capacity ∧ 1 ≤ rb.capacity)
    ∧ (∀ (S : Type) [Inhabited S] (rb0 : RingBuffer S) (ops : List (Op S)),
        (runOps rb0 ops).capacity = rb0.capacity) := by
  constructor
  · intro S _ rb h
    obtain ⟨⟨h1, h2, h3, h4⟩, _⟩ := reachable_wf h
    exact ⟨h3, h4, h1⟩
  · intro S _ rb0 ops
    exact capacity_runOps rb0 ops

theorem c8_bounds_invariant_witness :
    (2 : Nat) ≤ 3 ∧ (2 : Nat) < 3 ∧ (1 : Nat) ≤ 3 :=
  c8_bounds_invariant.1 String ⟨["a", "b", ""], 3, 2, 2, false, false⟩
    ⟨3, ⟨List.replicate 3 "", 3, 0, 0, false, true⟩,
      [Op.write "a", Op.write "b"], rfl, rfl⟩

/-- C10: the capacity bound on bulk writes is strict: on any reachable
buffer, a batch of exactly `capacity` values succeeds (`nil` error), fills
the buffer (`element_count = capacity`), and `Read()` afterwards returns
exactly that batch, regardless of prior contents. -/
theorem c10_exact_capacity_batch (S : Type) [Inhabited S]
    (rb : RingBuffer S) (vs : List S) (hreach : Reachable rb)
    (hlen : vs.length = rb.capacity) :
    (rb.WriteValues vs).2 = none
    ∧ (rb.WriteValues vs).1.values = rb.capacity
    ∧ (rb.WriteValues vs).1.Read = vs := by
  obtain ⟨hwf, _⟩ := reachable_wf hreach
  have hc := hwf.1
  have hv := hwf.2.2.1
  have hfst : (rb.WriteValues vs).1 = writeAll rb vs := by
    rw [WriteValues_fst, if_neg (by omega), if_neg (by omega)]
  have hsnd : (rb.WriteValues vs).2 = none := by
    unfold RingBuffer.WriteValues
    rw [if_neg (by omega), if_neg (by omega), writeLoop_eq]
  refine ⟨hsnd, ?_, ?_⟩
  · rw [hfst, values_writeAll hwf vs, hlen]
    omega
  · rw [hfst, Read_writeAll hwf vs, hlen,
      show rb.values + rb.capacity - min (rb.values + rb.capacity) rb.capacity
        = rb.values from by omega,
      List.drop_append_eq_append_drop]
    have h1 : rb.Read.drop rb.values = [] := by
      rw [← length_Read rb]
      exact List.drop_length rb.Read
    have h2 : rb.values - rb.Read.length = 0 := by
      rw [length_Read]
      omega
    rw [h1, h2]
    simp

theorem c10_exact_capacity_batch_witness :
    (RingBuffer.WriteValues (⟨["a", "b", ""], 3, 2, 2, false, false⟩ :
        RingBuffer String) ["p", "q", "r"]).2 = none
    ∧ (RingBuffer.WriteValues (⟨["a", "b", ""], 3, 2, 2, false, false⟩ :
        RingBuffer String) ["p", "q", "r"]).1.values = 3
    ∧ (RingBuffer.WriteValues (⟨["a", "b", ""], 3, 2, 2, false, false⟩ :
        RingBuffer String) ["p", "q", "r"]).1.Read = ["p", "q", "r"] :=
  c10_exact_capacity_batch String ⟨["a", "b", ""], 3, 2, 2, false, false⟩
    ["p", "q", "r"]
    ⟨3, ⟨List.replicate 3 "", 3, 0, 0, false, true⟩,
      [Op.write "a", Op.write "b"], rfl, rfl⟩ rfl

/-- C3 fails on the code: writing one value into a freshly constructed
capacity-1 buffer fills it; `Write`'s full-buffer branch sets `isFull` but
never clears `isEmpty`, so `IsEmpty()` returns `true` while the element
count (`Length()`) is 1 — contradicting `is_empty ⇔ element_count == 0`
(and the field's own documentation).  The `IsFull` half of the claim does
hold on all reachable states (it is part of `FlagInv`, maintained by
`reachable_wf`). -/
theorem c3_isEmpty_divergence :
    (New String 1).map (fun rb0 =>
      ((rb0.Write "a").1.IsEmpty, (rb0.Write "a").1.Length))
      = Except.ok (true, 1) := rfl

end RingSpec
